import Mathlib

/-!
Shallow embedding of the Plume Obsidian plugin (the final `main.ts` variant):
the dictionary store, the Shavian script tokenizer, the live decoration
builder, the Latin-to-Shavian batch translator and the load/save persistence
layer.

Modelling conventions:
 - text is a `List Char` of Unicode codepoints, one offset per codepoint;
 - the JavaScript `Map` is an insertion-ordered association list
   (`set` updates in place, new keys are appended, exactly as `Map` does);
 - timestamps (`Date` values) are `Nat`;
 - JavaScript `toUpperCase`/`toLowerCase` are modelled on the ASCII letters,
   the alphabet the source actually cases (`/^[A-Z]/`, segments of `\w`);
 - the regex scanners (`/·?[\u{10450}-\u{1047F}]+/gu`, `/[‹›]/g`,
   `/\b\w+\b|\W+/g`) are modelled as left-to-right maximal-munch scanners,
   which is exactly the semantics of `exec`/`match` with the `g` flag.
-/

namespace Plume

/-- Text (conventional or script): a list of Unicode codepoints. -/
abbrev Str := List Char

/-- Membership in the Shavian Unicode block, the character class
`[\u{10450}-\u{1047F}]` used by every script regex in the source. -/
def isShavianChar (c : Char) : Bool :=
  decide (0x10450 ≤ c.toNat ∧ c.toNat ≤ 0x1047F)

/-- The proper-noun marker: the interpunct `·` (U+00B7). -/
def interpunct : Char := '·'

/-- Source `isShavianScript`: text contains at least one Shavian codepoint. -/
def isShavianScript (text : Str) : Bool :=
  text.any isShavianChar

/-- The character class `[‹›]` of the quotation-substitution regex. -/
def isQuoteMarkChar (c : Char) : Bool :=
  c == '‹' || c == '›'

/-- JavaScript `toLowerCase`, restricted to the ASCII range the code cases. -/
def jsToLower (c : Char) : Char :=
  if 'A' ≤ c ∧ c ≤ 'Z' then Char.ofNat (c.toNat + 32) else c

/-- JavaScript `toUpperCase`, restricted to the ASCII range the code cases. -/
def jsToUpper (c : Char) : Char :=
  if 'a' ≤ c ∧ c ≤ 'z' then Char.ofNat (c.toNat - 32) else c

/-- Source `WordMapping`: `{shavian, latin, dateAdded}`. -/
structure WordMapping where
  shavian : Str
  latin : Str
  dateAdded : Nat
  deriving DecidableEq

/-- The in-memory dictionary: a JavaScript `Map<string, WordMapping>`,
modelled as an insertion-ordered association list. -/
abbrev Store := List (Str × WordMapping)

/-- `Map.get`: value of the first (and, for a real `Map`, only) entry
holding the key. -/
def mapGet {V : Type} (m : List (Str × V)) (k : Str) : Option V :=
  match m with
  | [] => none
  | (k', v) :: rest => if k' = k then some v else mapGet rest k

/-- `Map.set`: update the existing entry in place, else append a new one. -/
def mapSet {V : Type} (m : List (Str × V)) (k : Str) (v : V) : List (Str × V) :=
  match m with
  | [] => [(k, v)]
  | (k', v') :: rest => if k' = k then (k', v) :: rest else (k', v') :: mapSet rest k v

/-- `Map.delete`: drop the entry holding the key, if present. -/
def mapDelete {V : Type} (m : List (Str × V)) (k : Str) : List (Str × V) :=
  match m with
  | [] => []
  | (k', v) :: rest => if k' = k then rest else (k', v) :: mapDelete rest k

/-- `new Map(entries)`: `set` every pair in order into an empty map. -/
def mapFromList {V : Type} (l : List (Str × V)) : List (Str × V) :=
  l.foldl (fun m kv => mapSet m kv.1 kv.2) []

/-- Does the regex `·?[Shavian]+` match starting at this character?
Either the character itself is Shavian, or it is the interpunct and the
next character is Shavian. -/
def tokenStartsHere (c : Char) (rest : Str) : Bool :=
  isShavianChar c || (c == interpunct && ((rest.head?.map isShavianChar).getD false))

/-- Fuelled left-to-right scan of `/·?[\u{10450}-\u{1047F}]+/gu`:
at each offset, either the maximal-munch match starts here (emit it and
resume after it, as `exec` does via `lastIndex`) or move one character on.
The fuel is an upper bound on the text length, so it never runs out. -/
def shavianMatchesGo : Nat → Str → Nat → List (Str × Nat)
  | 0, _, _ => []
  | _ + 1, [], _ => []
  | fuel + 1, c :: rest, i =>
    if tokenStartsHere c rest then
      (c :: rest.takeWhile isShavianChar, i) ::
        shavianMatchesGo fuel (rest.dropWhile isShavianChar)
          (i + 1 + (rest.takeWhile isShavianChar).length)
    else
      shavianMatchesGo fuel rest (i + 1)

/-- All matches of `·?[Shavian]+` in a line, with their start offsets,
in ascending order. -/
def shavianMatches (ln : Str) : List (Str × Nat) :=
  shavianMatchesGo ln.length ln 0

/-- JavaScript `\w`: `[A-Za-z0-9_]`. -/
def isWordChar (c : Char) : Bool :=
  decide (('A' ≤ c ∧ c ≤ 'Z') ∨ ('a' ≤ c ∧ c ≤ 'z') ∨ ('0' ≤ c ∧ c ≤ '9') ∨ c = '_')

/-- Fuelled scan of `text.match(/\b\w+\b|\W+/g)`: the text splits into
maximal runs of word characters and maximal runs of non-word characters. -/
def tokenizeMixedGo : Nat → Str → List Str
  | 0, _ => []
  | _ + 1, [] => []
  | fuel + 1, c :: rest =>
    (c :: rest.takeWhile (fun d => isWordChar d == isWordChar c)) ::
      tokenizeMixedGo fuel (rest.dropWhile (fun d => isWordChar d == isWordChar c))

/-- The word/non-word segmentation used by the batch translator. -/
def tokenizeMixed (text : Str) : List Str :=
  tokenizeMixedGo text.length text

/-- A replacement decoration: half-open span `[start, stop)` and the text
the widget renders over it. -/
structure Deco where
  start : Nat
  stop : Nat
  text : Str
  deriving DecidableEq

/-- The quotation substitutions of a line: each `‹`/`›` occurrence whose
position is touched by the cursor at neither boundary becomes a
one-character replacement rendering `"`.  (Both branches of the source's
conditional produce the same `"` character.) -/
def quoteDecoAt (ln : Str) (lineFrom cursor p : Nat) : Option Deco :=
  match ln[p]? with
  | some ch =>
    if isQuoteMarkChar ch ∧ cursor ≠ lineFrom + p ∧ cursor ≠ lineFrom + p + 1 then
      some ⟨lineFrom + p, lineFrom + p + 1, ['"']⟩
    else none
  | none => none

def quoteDecos (ln : Str) (lineFrom cursor : Nat) : List Deco :=
  (List.range ln.length).filterMap (quoteDecoAt ln lineFrom cursor)

/-- `shavianWord.replace(/^·/, '')`: strip one leading interpunct. -/
def stripLeadingMark (t : Str) : Str :=
  match t with
  | c :: rest => if c = interpunct then rest else c :: rest
  | [] => []

/-- `charAt(0).toUpperCase() + slice(1)`. -/
def capitaliseFirst (s : Str) : Str :=
  match s with
  | c :: rest => jsToUpper c :: rest
  | [] => []

/-- Source `isName`: the match carries a leading interpunct, or the
character immediately before the match in the line is the interpunct. -/
def isNameToken (ln : Str) (tok : Str) (idx : Nat) : Bool :=
  tok.head? == some interpunct ||
    (decide (0 < idx) && (ln[idx - 1]? == some interpunct))

/-- The word substitutions of a line: each script token not touching the
cursor (`cursor < wordStart || cursor > wordEnd`), when auto-translate is
on and the base word is defined, becomes a replacement spanning the whole
match and rendering the stored translation, capitalised for names. -/
def wordDecoAt (ln : Str) (lineFrom cursor : Nat) (dict : Store)
    (autoTranslateEnabled : Bool) (m : Str × Nat) : Option Deco :=
  if (cursor < lineFrom + m.2 ∨ cursor > lineFrom + m.2 + m.1.length)
      ∧ autoTranslateEnabled then
    match mapGet dict (stripLeadingMark m.1) with
    | some mapping =>
      some ⟨lineFrom + m.2, lineFrom + m.2 + m.1.length,
        if isNameToken ln m.1 m.2 ∧ 0 < mapping.latin.length then
          capitaliseFirst mapping.latin
        else mapping.latin⟩
    | none => none
  else none

def wordDecos (ln : Str) (lineFrom cursor : Nat) (dict : Store)
    (autoTranslateEnabled : Bool) : List Deco :=
  (shavianMatches ln).filterMap (wordDecoAt ln lineFrom cursor dict autoTranslateEnabled)

/-- The sort key of `lineDecorations.sort((a, b) => a.from - b.from)`. -/
def decoLE (a b : Deco) : Prop := a.start ≤ b.start

instance : DecidableRel decoLE := fun a b => Nat.decLe a.start b.start

instance : IsTotal Deco decoLE := ⟨fun a b => Nat.le_total a.start b.start⟩

instance : IsTrans Deco decoLE := ⟨fun _ _ _ h h' => Nat.le_trans h h'⟩

/-- One line of `buildDecorations`: quotation substitutions, then word
substitutions, sorted by start offset. -/
def lineDecos (ln : Str) (lineFrom cursor : Nat) (dict : Store) (auto : Bool) : List Deco :=
  List.insertionSort decoLE
    (quoteDecos ln lineFrom cursor ++ wordDecos ln lineFrom cursor dict auto)

/-- The per-line loop of `buildDecorations`: lines are visited in order,
and each line starts one offset (the newline) after the previous one ends. -/
def buildFrom : List Str → Nat → Nat → Store → Bool → List Deco
  | [], _, _, _, _ => []
  | ln :: rest, lineFrom, cursor, dict, a =>
    lineDecos ln lineFrom cursor dict a ++
      buildFrom rest (lineFrom + ln.length + 1) cursor dict a

/-- Source `buildDecorations`: the full decoration pass over a document
(given as its list of lines), the cursor offset, the dictionary and the
auto-translate setting. -/
def buildDecorations (doc : List Str) (cursor : Nat) (dict : Store) (a : Bool) : List Deco :=
  buildFrom doc 0 cursor dict a

/-- Start offset of the given line in the document. -/
def lineStart : List Str → Nat → Nat
  | _, 0 => 0
  | [], _ + 1 => 0
  | ln :: rest, n + 1 => ln.length + 1 + lineStart rest n

/-- The reverse index: fold the forward map into
`lowercase latin → shavian`, last write winning, in insertion order
(`dictionary.forEach` + `reverseMap.set`). -/
def buildReverseIndex (dict : Store) : List (Str × Str) :=
  dict.foldl (fun rm kv => mapSet rm (kv.2.latin.map jsToLower) kv.1) []

/-- Source `isCapitalised`: `/^[A-Z]/.test(word)`. -/
def startsUpper (w : Str) : Bool :=
  match w.head? with
  | some c => decide ('A' ≤ c ∧ c ≤ 'Z')
  | none => false

/-- Source `/^\w+$/.test(word)`: a nonempty all-word-character segment. -/
def isWordSeg (w : Str) : Bool :=
  !w.isEmpty && w.all isWordChar

/-- Body of the `words.map` callback of `translateLatinToShavian`:
the emitted text for the segment, and whether a word segment missed. -/
def translateSeg (rm : List (Str × Str)) (w : Str) : Str × Bool :=
  if isWordSeg w then
    match mapGet rm (w.map jsToLower) with
    | some shavianWord =>
      (if startsUpper w then interpunct :: shavianWord else shavianWord, false)
    | none => (w, true)
  else (w, false)

/-- Result of the batch translator. -/
structure TransResult where
  translated : Str
  hasUntranslated : Bool
  deriving DecidableEq

/-- Source `translateLatinToShavian`: build the reverse index, segment the
text, translate each word segment, pass everything else through, join; the
flag records whether any word segment missed the reverse index. -/
def translateLatinToShavian (dict : Store) (text : Str) : TransResult :=
  let rm := buildReverseIndex dict
  let outs := (tokenizeMixed text).map (translateSeg rm)
  ⟨(outs.map Prod.fst).flatten, outs.any Prod.snd⟩

/-- The user-visible notices the selection-translation command can emit. -/
inductive NoticeMsg where
  | onlyLatinToShavianSupported
  | notAllWordsTranslated
  | textTranslated
  | noTranslatableWords
  deriving DecidableEq

/-- Observable outcome of `translateSelectedText`: the dictionary after the
command (it never touches it), the text handed to `replaceSelection` if
any, and the notice shown. -/
structure SelectionOutcome where
  dict : Store
  replacement : Option Str
  notice : NoticeMsg
  deriving DecidableEq

/-- Source `translateSelectedText`: reject script selections with a notice
and no mutation; otherwise translate, replacing the selection only when
the translation changed something. -/
def translateSelectedText (dict : Store) (selectedText : Str) : SelectionOutcome :=
  if isShavianScript selectedText then
    ⟨dict, none, NoticeMsg.onlyLatinToShavianSupported⟩
  else
    let t := translateLatinToShavian dict selectedText
    if t.translated ≠ selectedText then
      ⟨dict, some t.translated,
        if t.hasUntranslated then NoticeMsg.notAllWordsTranslated
        else NoticeMsg.textTranslated⟩
    else
      ⟨dict, none, NoticeMsg.noTranslatableWords⟩

/-- A persisted dictionary value: either a legacy plain string (just the
translation) or a record, of which the loader reads the `latin` field and
the optional `dateAdded` field. -/
inductive JVal where
  | str (s : Str)
  | record (latin : Str) (dateAdded : Option Nat)
  deriving DecidableEq

/-- The three on-disk shapes the loader accepts: an object with a
`dictionary` array of pairs, a bare array of pairs, or a bare object whose
own entries are the pairs. -/
inductive DictJson where
  | withDictField (pairs : List (Str × JVal))
  | bareArray (pairs : List (Str × JVal))
  | bareObject (pairs : List (Str × JVal))
  deriving DecidableEq

/-- The entry list the loader extracts from each accepted shape. -/
def DictJson.entries : DictJson → List (Str × JVal)
  | .withDictField p => p
  | .bareArray p => p
  | .bareObject p => p

/-- Migration of one persisted entry: a plain string value becomes a record
whose translation is that string; a record value keeps its translation and
its date when present (`new Date(value.dateAdded || new Date())`). -/
def migrateEntry (now : Nat) (kv : Str × JVal) : Str × WordMapping :=
  match kv with
  | (key, .str s) => (key, ⟨key, s, now⟩)
  | (key, .record latin d) => (key, ⟨key, latin, d.getD now⟩)

/-- Result of `loadDictionary`: the store, and whether the informational
"dictionary not found, starting with empty dictionary" path was taken. -/
structure LoadResult where
  dict : Store
  startedFresh : Bool
  deriving DecidableEq

/-- Source `loadDictionary`: `none` stands for any read or parse failure
(the `catch` branch), which yields an empty store; otherwise the entries of
whichever accepted shape was found are migrated into a fresh `Map`. -/
def loadDictionary (input : Option DictJson) (now : Nat) : LoadResult :=
  match input with
  | none => ⟨[], true⟩
  | some j => ⟨mapFromList (j.entries.map (migrateEntry now)), false⟩

/-- The canonical persisted shape `{version, exportDate, wordCount,
dictionary}` that `saveDictionary` always writes. -/
structure SavedFile where
  version : Str
  exportDate : Nat
  wordCount : Nat
  dictionary : List (Str × JVal)
  deriving DecidableEq

/-- Source `saveDictionary`: serialize the full store in entry order. -/
def saveDictionary (dict : Store) (now : Nat) : SavedFile :=
  { version := ['1', '.', '0'],
    exportDate := now,
    wordCount := dict.length,
    dictionary := dict.map fun kv => (kv.1, JVal.record kv.2.latin (some kv.2.dateAdded)) }

/-- Source `addWordMapping`: overwrite only `latin` on an existing key,
else insert a fresh record timestamped now; then save. -/
def addWordMapping (dict : Store) (shavianWord latin : Str) (now : Nat) :
    Store × SavedFile :=
  let d' :=
    match mapGet dict shavianWord with
    | some existing => mapSet dict shavianWord { existing with latin := latin }
    | none => mapSet dict shavianWord ⟨shavianWord, latin, now⟩
  (d', saveDictionary d' now)

/-- Source `removeWordMapping`: delete the key, then save. -/
def removeWordMapping (dict : Store) (shavianWord : Str) (now : Nat) :
    Store × SavedFile :=
  let d' := mapDelete dict shavianWord
  (d', saveDictionary d' now)

/-- Source `addSelectedTextToDictionary`: the word sent to the definition
modal is the first match of `/·?[\u{10450}-\u{1047F}]+/gu` in the
selection, leading interpunct included. -/
def addSelectedTextToDictionary (selectedText : Str) : Option Str :=
  (shavianMatches selectedText).head?.map Prod.fst

/-- Separation of two decoration spans: one ends no later than the other
starts. -/
def Deco.sep (a b : Deco) : Prop := a.stop ≤ b.start ∨ b.stop ≤ a.start

/-- The rendered text of a dictionary hit: the stored translation, first
character uppercased exactly when the token is marked as a proper name.
(The builder guards the uppercasing with `0 < length` as well; the two
formulations agree because uppercasing the empty string is the empty
string.) -/
def renderedText (ln t : Str) (s : Nat) (mapping : WordMapping) : Str :=
  if isNameToken ln t s then capitaliseFirst mapping.latin else mapping.latin

/-- A concrete two-line document — `𐑣𐑧` then `·𐑓?` — used to instantiate
universally quantified results. -/
def docW : List Str := [['𐑣', '𐑧'], ['·', '𐑓', '?']]

/-- The key invariant of the store: every record is filed under its own
`shavian` field. -/
def storeKeyInv (m : Store) : Prop := ∀ p ∈ m, p.2.shavian = p.1

/-- A small concrete store used to instantiate universally quantified
results: `𐑣 → hello`, `𐑓 → friend`. -/
def sampleStore : Store :=
  [(['𐑣'], ⟨['𐑣'], ['h', 'e', 'l', 'l', 'o'], 3⟩),
   (['𐑓'], ⟨['𐑓'], ['f', 'r', 'i', 'e', 'n', 'd'], 4⟩)]

/-- `sampleStore` extended with a marker-prefixed key, as the
add-selection flow can create. -/
def markedStore : Store :=
  sampleStore ++ [(('·' :: '𐑓' :: []), ⟨'·' :: '𐑓' :: [], ['B', 'o', 'b'], 9⟩)]

section MapLemmas

variable {V : Type}

theorem mapGet_set_self (m : List (Str × V)) (k : Str) (v : V) :
    mapGet (mapSet m k v) k = some v := by
  induction m with
  | nil => simp [mapSet, mapGet]
  | cons hd tl ih =>
    obtain ⟨k', v'⟩ := hd
    by_cases h : k' = k
    · simp [mapSet, mapGet, h]
    · simp [mapSet, mapGet, h, ih]

theorem mapGet_set_ne (m : List (Str × V)) (k k' : Str) (v : V) (h : k' ≠ k) :
    mapGet (mapSet m k v) k' = mapGet m k' := by
  induction m with
  | nil => simp [mapSet, mapGet, Ne.symm h]
  | cons hd tl ih =>
    obtain ⟨k'', v''⟩ := hd
    by_cases hk : k'' = k
    · subst hk
      simp [mapSet, mapGet, Ne.symm h]
    · by_cases hk' : k'' = k'
      · simp [mapSet, mapGet, hk, hk', h]
      · simp [mapSet, mapGet, hk, hk', ih]

theorem mapSet_eq_append (m : List (Str × V)) (k : Str) (v : V)
    (h : mapGet m k = none) : mapSet m k v = m ++ [(k, v)] := by
  induction m with
  | nil => simp [mapSet]
  | cons hd tl ih =>
    obtain ⟨k', v'⟩ := hd
    by_cases hk : k' = k
    · simp [mapGet, hk] at h
    · simp [mapGet, hk] at h
      simp [mapSet, hk, ih h]

theorem mapSet_get_self (m : List (Str × V)) (k : Str) (v : V)
    (h : mapGet m k = some v) : mapSet m k v = m := by
  induction m with
  | nil => simp [mapGet] at h
  | cons hd tl ih =>
    obtain ⟨k', v'⟩ := hd
    by_cases hk : k' = k
    · simp [mapGet, hk] at h
      simp [mapSet, hk, h]
    · simp [mapGet, hk] at h
      simp [mapSet, hk, ih h]

theorem length_mapSet_present (m : List (Str × V)) (k : Str) (v : V)
    (h : (mapGet m k).isSome) : (mapSet m k v).length = m.length := by
  induction m with
  | nil => simp [mapGet] at h
  | cons hd tl ih =>
    obtain ⟨k', v'⟩ := hd
    by_cases hk : k' = k
    · simp [mapSet, hk]
    · simp [mapGet, hk] at h
      simp [mapSet, hk, ih h]

theorem mem_mapSet (m : List (Str × V)) (k : Str) (v : V) (p : Str × V)
    (h : p ∈ mapSet m k v) : p ∈ m ∨ p = (k, v) := by
  induction m with
  | nil => simp [mapSet] at h; simp [h]
  | cons hd tl ih =>
    obtain ⟨k', v'⟩ := hd
    by_cases hk : k' = k
    · subst hk
      simp [mapSet] at h
      rcases h with h | h
      · right; simp [h]
      · left; simp [h]
    · simp [mapSet, hk] at h
      rcases h with h | h
      · left; simp [h]
      · rcases ih h with h' | h'
        · left; simp [h']
        · right; exact h'

theorem mapGet_delete_ne (m : List (Str × V)) (k b : Str) (h : b ≠ k) :
    mapGet (mapDelete m k) b = mapGet m b := by
  induction m with
  | nil => simp [mapDelete]
  | cons hd tl ih =>
    obtain ⟨k', v'⟩ := hd
    by_cases hk : k' = k
    · subst hk
      simp [mapDelete, mapGet, Ne.symm h]
    · simp only [mapDelete, if_neg hk]
      by_cases hb : k' = b
      · simp [mapGet, hb]
      · simp [mapGet, hb, ih]

theorem mem_mapDelete (m : List (Str × V)) (k : Str) (p : Str × V)
    (h : p ∈ mapDelete m k) : p ∈ m := by
  induction m with
  | nil => simp [mapDelete] at h
  | cons hd tl ih =>
    obtain ⟨k', v'⟩ := hd
    by_cases hk : k' = k
    · simp [mapDelete, hk] at h
      simp [h]
    · simp [mapDelete, hk] at h
      rcases h with h | h
      · simp [h]
      · simp [ih h]

theorem mapGet_append_of_none (m₁ m₂ : List (Str × V)) (b : Str)
    (h : mapGet m₁ b = none) : mapGet (m₁ ++ m₂) b = mapGet m₂ b := by
  induction m₁ with
  | nil => simp
  | cons hd tl ih =>
    obtain ⟨k', v'⟩ := hd
    by_cases hk : k' = b
    · simp [mapGet, hk] at h
    · simp [mapGet, hk] at h ⊢
      exact ih h

theorem mapFromList_aux (l acc : List (Str × V))
    (hacc : ∀ kv ∈ l, mapGet acc kv.1 = none)
    (hnd : (l.map Prod.fst).Nodup) :
    l.foldl (fun m kv => mapSet m kv.1 kv.2) acc = acc ++ l := by
  induction l generalizing acc with
  | nil => simp
  | cons hd tl ih =>
    obtain ⟨k, v⟩ := hd
    simp only [List.foldl_cons]
    rw [mapSet_eq_append _ _ _ (hacc (k, v) (by simp))]
    rw [ih (acc ++ [(k, v)])]
    · simp
    · intro kv hkv
      rw [mapGet_append_of_none _ _ _ (hacc kv (by simp [hkv]))]
      have hne : k ≠ kv.1 := by
        simp only [List.map_cons, List.nodup_cons] at hnd
        intro he
        exact hnd.1 (he ▸ List.mem_map_of_mem Prod.fst hkv)
      simp [mapGet, hne]
    · simp only [List.map_cons, List.nodup_cons] at hnd
      exact hnd.2

theorem mapFromList_self (l : List (Str × V)) (hnd : (l.map Prod.fst).Nodup) :
    mapFromList l = l := by
  unfold mapFromList
  rw [mapFromList_aux l [] (fun kv _ => rfl) hnd]
  simp

theorem mem_mapFromList (l : List (Str × V)) (p : Str × V)
    (h : p ∈ mapFromList l) : p ∈ l := by
  unfold mapFromList at h
  suffices haux : ∀ acc : List (Str × V),
      p ∈ l.foldl (fun m kv => mapSet m kv.1 kv.2) acc → p ∈ acc ∨ p ∈ l by
    rcases haux [] h with h' | h'
    · simp at h'
    · exact h'
  clear h
  induction l with
  | nil => intro acc h; exact Or.inl h
  | cons hd tl ih =>
    intro acc h
    simp only [List.foldl_cons] at h
    rcases ih (mapSet acc hd.1 hd.2) h with h' | h'
    · rcases mem_mapSet _ _ _ _ h' with h'' | h''
      · exact Or.inl h''
      · right; simp [h'']
    · right; simp [h']

theorem mapGet_mem (m : List (Str × V)) (k : Str) (v : V)
    (h : mapGet m k = some v) : (k, v) ∈ m := by
  induction m with
  | nil => simp [mapGet] at h
  | cons hd tl ih =>
    obtain ⟨k', v'⟩ := hd
    by_cases hk : k' = k
    · subst hk
      simp [mapGet] at h
      simp [h]
    · simp [mapGet, hk] at h
      simp [ih h]

end MapLemmas

theorem tokenizeMixedGo_flatten (fuel : Nat) :
    ∀ l : Str, l.length ≤ fuel → (tokenizeMixedGo fuel l).flatten = l := by
  induction fuel with
  | zero =>
    intro l hl
    have : l = [] := List.eq_nil_of_length_eq_zero (Nat.le_zero.mp hl)
    subst this
    rfl
  | succ n ih =>
    intro l hl
    match l with
    | [] => rfl
    | c :: rest =>
      simp only [tokenizeMixedGo, List.flatten_cons]
      have hd : (rest.dropWhile (fun d => isWordChar d == isWordChar c)).length ≤ n :=
        le_trans (List.dropWhile_sublist _).length_le (Nat.le_of_succ_le_succ hl)
      rw [ih _ hd, List.cons_append, List.takeWhile_append_dropWhile]

theorem tokenizeMixedGo_ne_nil (fuel : Nat) :
    ∀ l : Str, ∀ w ∈ tokenizeMixedGo fuel l, w ≠ [] := by
  induction fuel with
  | zero => intro l w hw; simp [tokenizeMixedGo] at hw
  | succ n ih =>
    intro l w hw
    match l with
    | [] => simp [tokenizeMixedGo] at hw
    | c :: rest =>
      simp only [tokenizeMixedGo, List.mem_cons] at hw
      rcases hw with hw | hw
      · simp [hw]
      · exact ih _ w hw

/-- C7: the word/non-word segmentation used by the batch translator covers
the entire input with no gaps or overlaps — concatenating all segments in
order reproduces the input exactly — and no segment is empty. -/
theorem tokenizeMixed_covers (text : Str) :
    (tokenizeMixed text).flatten = text ∧ ∀ w ∈ tokenizeMixed text, w ≠ [] :=
  ⟨tokenizeMixedGo_flatten text.length text le_rfl,
   fun w hw => tokenizeMixedGo_ne_nil text.length text w hw⟩

/-- Witness for C7 at a concrete mixed input. -/
theorem tokenizeMixed_covers_witness :
    (tokenizeMixed ('H' :: 'i' :: '!' :: [])).flatten = 'H' :: 'i' :: '!' :: [] ∧
      ('H' :: 'i' :: []) ≠ ([] : Str) :=
  ⟨(tokenizeMixed_covers ('H' :: 'i' :: '!' :: [])).1,
   (tokenizeMixed_covers ('H' :: 'i' :: '!' :: [])).2 ('H' :: 'i' :: []) (by decide)⟩

theorem translateSeg_snd (rm : List (Str × Str)) (w : Str) :
    (translateSeg rm w).2 = true ↔
      isWordSeg w = true ∧ mapGet rm (w.map jsToLower) = none := by
  unfold translateSeg
  by_cases h : isWordSeg w = true
  · cases hg : mapGet rm (w.map jsToLower) with
    | none => simp [h, hg]
    | some sk => simp [h, hg]
  · simp [h]

/-- C2: batch translation tokenizes the text into word and non-word
segments; each word segment is lowercased and looked up in the reverse
index — a hit emits the mapped script key, marker-prefixed iff the
original segment began with an uppercase letter, a miss emits the segment
unchanged; non-word segments pass through verbatim; the output is the
concatenation of the emitted segments, and `hasUntranslated` holds iff at
least one word segment missed. -/
theorem translateLatinToShavian_spec (dict : Store) (text : Str) :
    (translateLatinToShavian dict text).translated =
        ((tokenizeMixed text).map
          (fun w => (translateSeg (buildReverseIndex dict) w).1)).flatten ∧
    ((translateLatinToShavian dict text).hasUntranslated = true ↔
        ∃ w ∈ tokenizeMixed text, isWordSeg w = true ∧
          mapGet (buildReverseIndex dict) (w.map jsToLower) = none) ∧
    (∀ w, isWordSeg w = false → translateSeg (buildReverseIndex dict) w = (w, false)) ∧
    (∀ w, isWordSeg w = true →
        ∀ sk, mapGet (buildReverseIndex dict) (w.map jsToLower) = some sk →
          translateSeg (buildReverseIndex dict) w =
            (if startsUpper w then interpunct :: sk else sk, false)) ∧
    (∀ w, isWordSeg w = true →
        mapGet (buildReverseIndex dict) (w.map jsToLower) = none →
          translateSeg (buildReverseIndex dict) w = (w, true)) := by
  refine ⟨?_, ?_, ?_, ?_, ?_⟩
  · simp [translateLatinToShavian, List.map_map]
    rfl
  · simp only [translateLatinToShavian, List.any_eq_true, List.mem_map]
    constructor
    · rintro ⟨b, ⟨w, hw, rfl⟩, hb⟩
      exact ⟨w, hw, (translateSeg_snd _ w).mp hb⟩
    · rintro ⟨w, hw, hcond⟩
      exact ⟨translateSeg (buildReverseIndex dict) w, ⟨w, hw, rfl⟩,
        (translateSeg_snd _ w).mpr hcond⟩
  · intro w h; simp [translateSeg, h]
  · intro w h sk hg; simp [translateSeg, h, hg]
  · intro w h hg; simp [translateSeg, h, hg]

/-- Witness for C2: scenario-E style concrete input with one unmapped
word. -/
theorem translateLatinToShavian_spec_witness :
    (translateLatinToShavian sampleStore
        ('H' :: 'e' :: 'l' :: 'l' :: 'o' :: ' ' :: 'f' :: 'r' :: 'e' :: 'd' :: [])).hasUntranslated
      = true :=
  ((translateLatinToShavian_spec sampleStore
      ('H' :: 'e' :: 'l' :: 'l' :: 'o' :: ' ' :: 'f' :: 'r' :: 'e' :: 'd' :: [])).2.1).mpr
    (by decide)

/-- C3: `loadDictionary` never fails observably — any I/O or parse failure
yields the empty store with the informational started-fresh flag — and it
accepts the canonical shape, a bare array of pairs, and a bare key-object,
turning a legacy plain-string value into a record whose translation is
that string. -/
theorem loadDictionary_total (now : Nat) :
    loadDictionary none now = ⟨[], true⟩ ∧
    (∀ pairs : List (Str × JVal),
      loadDictionary (some (DictJson.withDictField pairs)) now =
          ⟨mapFromList (pairs.map (migrateEntry now)), false⟩ ∧
      loadDictionary (some (DictJson.bareArray pairs)) now =
          ⟨mapFromList (pairs.map (migrateEntry now)), false⟩ ∧
      loadDictionary (some (DictJson.bareObject pairs)) now =
          ⟨mapFromList (pairs.map (migrateEntry now)), false⟩) ∧
    (∀ key s : Str, migrateEntry now (key, JVal.str s) = (key, ⟨key, s, now⟩)) ∧
    (∀ key s : Str,
      (loadDictionary (some (DictJson.bareObject [(key, JVal.str s)])) now).dict =
        [(key, ⟨key, s, now⟩)]) :=
  ⟨rfl, fun _ => ⟨rfl, rfl, rfl⟩, fun _ _ => rfl, fun _ _ => rfl⟩

/-- C8: a selection containing at least one Shavian codepoint is rejected
as a usage error — the only-Latin notice is shown, no replacement is made,
and the store is untouched. -/
theorem translateSelectedText_rejects_script (dict : Store) (sel : Str)
    (h : ∃ c ∈ sel, isShavianChar c = true) :
    translateSelectedText dict sel =
      ⟨dict, none, NoticeMsg.onlyLatinToShavianSupported⟩ := by
  have hs : isShavianScript sel = true := by
    simpa [isShavianScript, List.any_eq_true] using h
  simp [translateSelectedText, hs]

/-- Witness for C8 at a concrete script selection. -/
theorem translateSelectedText_rejects_script_witness :
    translateSelectedText sampleStore ('a' :: '𐑣' :: []) =
      ⟨sampleStore, none, NoticeMsg.onlyLatinToShavianSupported⟩ :=
  translateSelectedText_rejects_script sampleStore ('a' :: '𐑣' :: []) (by decide)

/-- C4: saving always writes the canonical shape with `wordCount` equal to
the number of entries, and loading the saved file back yields a store with
the same keys in the same order, each mapped to the identical translation
(indeed the identical timestamp as well). -/
theorem save_load_round_trip (dict : Store) (now now2 : Nat)
    (hnd : (dict.map Prod.fst).Nodup) :
    (saveDictionary dict now).version = '1' :: '.' :: '0' :: [] ∧
    (saveDictionary dict now).exportDate = now ∧
    (saveDictionary dict now).wordCount = dict.length ∧
    (loadDictionary (some (DictJson.withDictField
        (saveDictionary dict now).dictionary)) now2).dict =
      dict.map (fun kv => (kv.1, ⟨kv.1, kv.2.latin, kv.2.dateAdded⟩)) ∧
    ((loadDictionary (some (DictJson.withDictField
        (saveDictionary dict now).dictionary)) now2).dict.map
      (fun kv => (kv.1, kv.2.latin))) = dict.map (fun kv => (kv.1, kv.2.latin)) := by
  have h4 : (loadDictionary (some (DictJson.withDictField
      (saveDictionary dict now).dictionary)) now2).dict =
      dict.map (fun kv => (kv.1, ⟨kv.1, kv.2.latin, kv.2.dateAdded⟩)) := by
    show mapFromList (((dict.map fun kv =>
        (kv.1, JVal.record kv.2.latin (some kv.2.dateAdded))).map (migrateEntry now2))) = _
    rw [List.map_map]
    have hfun : (migrateEntry now2) ∘
        (fun kv : Str × WordMapping => (kv.1, JVal.record kv.2.latin (some kv.2.dateAdded))) =
        fun kv => (kv.1, ⟨kv.1, kv.2.latin, kv.2.dateAdded⟩) := by
      funext kv; rfl
    rw [hfun]
    apply mapFromList_self
    rw [List.map_map]
    exact hnd
  refine ⟨rfl, rfl, rfl, h4, ?_⟩
  rw [h4, List.map_map]
  rfl

/-- Witness for C4 at a concrete two-entry store. -/
theorem save_load_round_trip_witness :
    ((loadDictionary (some (DictJson.withDictField
        (saveDictionary sampleStore 5).dictionary)) 9).dict.map
      (fun kv => (kv.1, kv.2.latin))) = sampleStore.map (fun kv => (kv.1, kv.2.latin)) :=
  (save_load_round_trip sampleStore 5 9 (by decide)).2.2.2.2

/-- C5: defining an existing key overwrites only its translation (the
stored timestamp, the store size and every other record are unchanged, and
redefining with the current translation leaves the store unchanged);
defining an absent key appends a freshly timestamped record; and define
always hands the updated store to save. -/
theorem addWordMapping_spec (dict : Store) (k lat : Str) (now : Nat) :
    (∀ ex, mapGet dict k = some ex →
      mapGet (addWordMapping dict k lat now).1 k = some ⟨ex.shavian, lat, ex.dateAdded⟩ ∧
      (∀ k', k' ≠ k → mapGet (addWordMapping dict k lat now).1 k' = mapGet dict k') ∧
      (addWordMapping dict k lat now).1.length = dict.length ∧
      (lat = ex.latin → (addWordMapping dict k lat now).1 = dict)) ∧
    (mapGet dict k = none →
      (addWordMapping dict k lat now).1 = dict ++ [(k, ⟨k, lat, now⟩)] ∧
      mapGet (addWordMapping dict k lat now).1 k = some ⟨k, lat, now⟩ ∧
      (∀ k', k' ≠ k → mapGet (addWordMapping dict k lat now).1 k' = mapGet dict k')) ∧
    (addWordMapping dict k lat now).2 = saveDictionary (addWordMapping dict k lat now).1 now := by
  refine ⟨?_, ?_, ?_⟩
  · intro ex hex
    have h1 : (addWordMapping dict k lat now).1 = mapSet dict k { ex with latin := lat } := by
      simp [addWordMapping, hex]
    refine ⟨?_, ?_, ?_, ?_⟩
    · rw [h1, mapGet_set_self]
    · intro k' hk'
      rw [h1, mapGet_set_ne _ _ _ _ hk']
    · rw [h1]
      exact length_mapSet_present dict k _ (by rw [hex]; rfl)
    · intro hlat
      rw [h1]
      have hrec : { ex with latin := lat } = ex := by cases ex; simp [hlat]
      rw [hrec]
      exact mapSet_get_self dict k ex hex
  · intro hnone
    have h1 : (addWordMapping dict k lat now).1 = mapSet dict k ⟨k, lat, now⟩ := by
      simp [addWordMapping, hnone]
    refine ⟨?_, ?_, ?_⟩
    · rw [h1]
      exact mapSet_eq_append dict k _ hnone
    · rw [h1, mapGet_set_self]
    · intro k' hk'
      rw [h1, mapGet_set_ne _ _ _ _ hk']
  · rfl

/-- Witness for C5: overwriting `𐑣` keeps its original timestamp. -/
theorem addWordMapping_spec_witness :
    mapGet (addWordMapping sampleStore (['𐑣']) ('h' :: 'i' :: []) 7).1 (['𐑣']) =
      some ⟨['𐑣'], 'h' :: 'i' :: [], 3⟩ :=
  ((addWordMapping_spec sampleStore (['𐑣']) ('h' :: 'i' :: []) 7).1
    ⟨['𐑣'], ['h', 'e', 'l', 'l', 'o'], 3⟩ (by decide)).1

/-- C9: every record in the store is filed under its own `shavian` field:
this holds for the result of load on every accepted input (all three
shapes and the failure path) and is preserved by define and by remove. -/
theorem store_key_invariant_spec :
    (∀ input now, storeKeyInv (loadDictionary input now).dict) ∧
    (∀ dict k lat now, storeKeyInv dict → storeKeyInv (addWordMapping dict k lat now).1) ∧
    (∀ dict k now, storeKeyInv dict → storeKeyInv (removeWordMapping dict k now).1) := by
  refine ⟨?_, ?_, ?_⟩
  · rintro (_ | j) now
    · intro p hp
      simp [loadDictionary] at hp
    · intro p hp
      have hp' := mem_mapFromList _ _ hp
      simp only [List.mem_map] at hp'
      obtain ⟨kv, hkv, rfl⟩ := hp'
      obtain ⟨key, val⟩ := kv
      cases val <;> rfl
  · intro dict k lat now hinv p hp
    cases hex : mapGet dict k with
    | some ex =>
      have h1 : (addWordMapping dict k lat now).1 = mapSet dict k { ex with latin := lat } := by
        simp [addWordMapping, hex]
      rw [h1] at hp
      rcases mem_mapSet _ _ _ _ hp with h | h
      · exact hinv p h
      · subst h
        have hs := hinv _ (mapGet_mem dict k ex hex)
        simpa using hs
    | none =>
      have h1 : (addWordMapping dict k lat now).1 = mapSet dict k ⟨k, lat, now⟩ := by
        simp [addWordMapping, hex]
      rw [h1] at hp
      rcases mem_mapSet _ _ _ _ hp with h | h
      · exact hinv p h
      · subst h
        rfl
  · intro dict k now hinv p hp
    exact hinv p (mem_mapDelete dict k p hp)

/-- Witness for C9: the invariant survives defining a marker-prefixed key. -/
theorem store_key_invariant_spec_witness :
    storeKeyInv (addWordMapping sampleStore ('·' :: '𐑣' :: []) ('B' :: 'o' :: 'b' :: []) 7).1 :=
  store_key_invariant_spec.2.1 sampleStore ('·' :: '𐑣' :: []) ('B' :: 'o' :: 'b' :: []) 7
    (by unfold storeKeyInv; decide)

theorem shavianMatchesGo_decomp (fuel : Nat) :
    ∀ (l : Str) (i : Nat), l.length ≤ fuel →
      ∀ t s, (t, s) ∈ shavianMatchesGo fuel l i →
        ∃ pre suf, l = pre ++ t ++ suf ∧ s = i + pre.length := by
  induction fuel with
  | zero =>
    intro l i _ t s ht
    simp [shavianMatchesGo] at ht
  | succ n ih =>
    intro l i hl t s ht
    rcases l with _ | ⟨c, rest⟩
    · simp [shavianMatchesGo] at ht
    · by_cases hc : tokenStartsHere c rest = true
      · simp only [shavianMatchesGo, hc, if_true, List.mem_cons, Prod.mk.injEq] at ht
        rcases ht with ⟨rfl, rfl⟩ | ht
        · refine ⟨[], rest.dropWhile isShavianChar, ?_, by simp⟩
          simp [List.takeWhile_append_dropWhile]
        · have hlen : (rest.dropWhile isShavianChar).length ≤ n :=
            le_trans (List.dropWhile_sublist isShavianChar).length_le
              (Nat.le_of_succ_le_succ hl)
          obtain ⟨pre, suf, hls, hs⟩ := ih _ _ hlen t s ht
          refine ⟨c :: (rest.takeWhile isShavianChar ++ pre), suf, ?_, ?_⟩
          · simp only [List.cons_append, List.append_assoc]
            have hls' : List.dropWhile isShavianChar rest = pre ++ (t ++ suf) := by
              simpa [List.append_assoc] using hls
            rw [← hls', List.takeWhile_append_dropWhile]
          · simp only [List.length_cons, List.length_append]
            omega
      · simp only [shavianMatchesGo, hc, if_false] at ht
        have hlen : rest.length ≤ n := Nat.le_of_succ_le_succ hl
        obtain ⟨pre, suf, hls, hs⟩ := ih _ _ hlen t s ht
        refine ⟨c :: pre, suf, by simp [hls], ?_⟩
        simp only [List.length_cons]
        omega

theorem shavianMatchesGo_shape (fuel : Nat) :
    ∀ (l : Str) (i : Nat) (t : Str) (s : Nat), (t, s) ∈ shavianMatchesGo fuel l i →
      ∃ d run, t = d :: run ∧ (∀ c ∈ run, isShavianChar c = true) ∧
        (isShavianChar d = true ∨ (d = interpunct ∧ run ≠ [])) := by
  induction fuel with
  | zero =>
    intro l i t s ht
    simp [shavianMatchesGo] at ht
  | succ n ih =>
    intro l i t s ht
    rcases l with _ | ⟨c, rest⟩
    · simp [shavianMatchesGo] at ht
    · by_cases hc : tokenStartsHere c rest = true
      · simp only [shavianMatchesGo, hc, if_true, List.mem_cons, Prod.mk.injEq] at ht
        rcases ht with ⟨rfl, rfl⟩ | ht
        · refine ⟨c, rest.takeWhile isShavianChar, rfl,
            fun x hx => List.mem_takeWhile_imp hx, ?_⟩
          simp only [tokenStartsHere, Bool.or_eq_true, Bool.and_eq_true, beq_iff_eq] at hc
          rcases hc with h | ⟨h1, h2⟩
          · exact Or.inl h
          · right
            refine ⟨h1, ?_⟩
            rcases rest with _ | ⟨d₀, rest'⟩
            · simp at h2
            · have h2' : isShavianChar d₀ = true := by simpa using h2
              simp [List.takeWhile_cons, h2']
        · exact ih _ _ t s ht
      · simp only [shavianMatchesGo, hc, if_false] at ht
        exact ih _ _ t s ht

theorem shavianMatchesGo_start_le (fuel : Nat) :
    ∀ (l : Str) (i : Nat) (t : Str) (s : Nat),
      (t, s) ∈ shavianMatchesGo fuel l i → i ≤ s := by
  induction fuel with
  | zero =>
    intro l i t s ht
    simp [shavianMatchesGo] at ht
  | succ n ih =>
    intro l i t s ht
    rcases l with _ | ⟨c, rest⟩
    · simp [shavianMatchesGo] at ht
    · by_cases hc : tokenStartsHere c rest = true
      · simp only [shavianMatchesGo, hc, if_true, List.mem_cons, Prod.mk.injEq] at ht
        rcases ht with ⟨rfl, rfl⟩ | ht
        · exact le_rfl
        · have := ih _ _ t s ht
          omega
      · simp only [shavianMatchesGo, hc, if_false] at ht
        have := ih _ _ t s ht
        omega

theorem shavianMatchesGo_pairwise (fuel : Nat) :
    ∀ (l : Str) (i : Nat),
      (shavianMatchesGo fuel l i).Pairwise (fun x y => x.2 + x.1.length ≤ y.2) := by
  induction fuel with
  | zero =>
    intro l i
    simp [shavianMatchesGo]
  | succ n ih =>
    intro l i
    rcases l with _ | ⟨c, rest⟩
    · simp [shavianMatchesGo]
    · by_cases hc : tokenStartsHere c rest = true
      · simp only [shavianMatchesGo, hc, if_true]
        refine List.Pairwise.cons ?_ (ih _ _)
        intro y hy
        obtain ⟨t', s'⟩ := y
        have h1 := shavianMatchesGo_start_le n _ _ t' s' hy
        simp only [List.length_cons]
        omega
      · simp only [shavianMatchesGo, hc, if_false]
        exact ih _ _

theorem shavianMatches_decomp (ln t : Str) (s : Nat)
    (h : (t, s) ∈ shavianMatches ln) :
    ∃ pre suf, ln = pre ++ t ++ suf ∧ s = pre.length := by
  obtain ⟨pre, suf, h1, h2⟩ := shavianMatchesGo_decomp ln.length ln 0 le_rfl t s h
  exact ⟨pre, suf, h1, by omega⟩

theorem shavianMatches_shape (ln t : Str) (s : Nat)
    (h : (t, s) ∈ shavianMatches ln) :
    ∃ d run, t = d :: run ∧ (∀ c ∈ run, isShavianChar c = true) ∧
      (isShavianChar d = true ∨ (d = interpunct ∧ run ≠ [])) :=
  shavianMatchesGo_shape ln.length ln 0 t s h

theorem shavianMatches_ne_nil (ln t : Str) (s : Nat)
    (h : (t, s) ∈ shavianMatches ln) : t ≠ [] := by
  obtain ⟨d, run, rfl, -, -⟩ := shavianMatches_shape ln t s h
  simp

theorem shavianMatches_bounds (ln t : Str) (s : Nat)
    (h : (t, s) ∈ shavianMatches ln) : s + t.length ≤ ln.length := by
  obtain ⟨pre, suf, hln, hs⟩ := shavianMatches_decomp ln t s h
  subst hs
  rw [hln]
  simp only [List.length_append]
  omega

theorem shavianMatches_pairwise (ln : Str) :
    (shavianMatches ln).Pairwise (fun x y => x.2 + x.1.length ≤ y.2) :=
  shavianMatchesGo_pairwise ln.length ln 0

theorem shavianMatches_token_chars (ln t : Str) (s : Nat)
    (h : (t, s) ∈ shavianMatches ln) :
    ∀ c ∈ t, c = interpunct ∨ isShavianChar c = true := by
  obtain ⟨d, run, rfl, hrun, hd⟩ := shavianMatches_shape ln t s h
  intro c hcmem
  rcases List.mem_cons.mp hcmem with rfl | hcmem
  · rcases hd with h' | ⟨h', -⟩
    · exact Or.inr h'
    · exact Or.inl h'
  · exact Or.inr (hrun c hcmem)

theorem shavianMatches_char_at (ln t : Str) (s p : Nat)
    (h : (t, s) ∈ shavianMatches ln) (h1 : s ≤ p) (h2 : p < s + t.length) :
    ∃ c, ln[p]? = some c ∧ (c = interpunct ∨ isShavianChar c = true) := by
  obtain ⟨pre, suf, hln, hs⟩ := shavianMatches_decomp ln t s h
  subst hs
  have hcp : p - pre.length < t.length := by omega
  refine ⟨t.get ⟨p - pre.length, hcp⟩, ?_, ?_⟩
  · rw [hln, List.append_assoc, List.getElem?_append_right h1,
      List.getElem?_append_left hcp]
    rw [List.getElem?_eq_getElem hcp]
    simp [List.get_eq_getElem]
  · exact shavianMatches_token_chars ln t pre.length h _
      (List.get_mem t (p - pre.length) hcp)

theorem quote_not_script (c : Char) (h : isQuoteMarkChar c = true) :
    ¬(c = interpunct ∨ isShavianChar c = true) := by
  simp only [isQuoteMarkChar, Bool.or_eq_true, beq_iff_eq] at h
  rcases h with rfl | rfl <;> decide

theorem quoteDecoAt_eq_some (ln : Str) (f cur p : Nat) (d : Deco) :
    quoteDecoAt ln f cur p = some d ↔
      ∃ ch, ln[p]? = some ch ∧ isQuoteMarkChar ch = true ∧
        cur ≠ f + p ∧ cur ≠ f + p + 1 ∧ d = ⟨f + p, f + p + 1, ['"']⟩ := by
  unfold quoteDecoAt
  cases hch : ln[p]? with
  | none => simp
  | some ch =>
    dsimp only
    by_cases h1 : isQuoteMarkChar ch = true ∧ cur ≠ f + p ∧ cur ≠ f + p + 1
    · rw [if_pos h1]
      simp only [Option.some_inj]
      constructor
      · rintro rfl
        exact ⟨ch, rfl, h1.1, h1.2.1, h1.2.2, rfl⟩
      · rintro ⟨ch', hch', -, -, -, rfl⟩
        rfl
    · rw [if_neg h1]
      constructor
      · intro h; cases h
      · rintro ⟨ch', hch', hq, h3, h4, rfl⟩
        obtain rfl := Option.some_inj.mp hch'
        exact absurd ⟨hq, h3, h4⟩ h1

theorem wordDecoAt_eq_some (ln : Str) (f cur : Nat) (dict : Store) (a : Bool)
    (t : Str) (s : Nat) (d : Deco) :
    wordDecoAt ln f cur dict a (t, s) = some d ↔
      (cur < f + s ∨ cur > f + s + t.length) ∧ a = true ∧
      ∃ mapping, mapGet dict (stripLeadingMark t) = some mapping ∧
        d = ⟨f + s, f + s + t.length,
          if isNameToken ln t s ∧ 0 < mapping.latin.length then
            capitaliseFirst mapping.latin
          else mapping.latin⟩ := by
  unfold wordDecoAt
  by_cases hcond : (cur < f + s ∨ cur > f + s + t.length) ∧ a = true
  · rw [if_pos hcond]
    cases hget : mapGet dict (stripLeadingMark t) with
    | none =>
      constructor
      · intro h; cases h
      · rintro ⟨-, -, mapping, hm, -⟩
        cases hm
    | some mapping =>
      simp only [Option.some_inj]
      constructor
      · rintro rfl
        exact ⟨hcond.1, hcond.2, mapping, rfl, rfl⟩
      · rintro ⟨-, -, mapping', hm', rfl⟩
        cases hm'
        rfl
  · rw [if_neg hcond]
    constructor
    · intro h; cases h
    · rintro ⟨h1, h2, -⟩
      exact absurd ⟨h1, h2⟩ hcond

theorem mem_quoteDecos (ln : Str) (f cur : Nat) (d : Deco) :
    d ∈ quoteDecos ln f cur ↔ ∃ p, quoteDecoAt ln f cur p = some d := by
  unfold quoteDecos
  rw [List.mem_filterMap]
  constructor
  · rintro ⟨p, -, hp⟩
    exact ⟨p, hp⟩
  · rintro ⟨p, hp⟩
    refine ⟨p, List.mem_range.mpr ?_, hp⟩
    obtain ⟨ch, hch, -⟩ := (quoteDecoAt_eq_some ln f cur p d).mp hp
    exact (List.getElem?_eq_some_iff.mp hch).1

theorem mem_wordDecos (ln : Str) (f cur : Nat) (dict : Store) (a : Bool) (d : Deco) :
    d ∈ wordDecos ln f cur dict a ↔
      ∃ t s, (t, s) ∈ shavianMatches ln ∧
        wordDecoAt ln f cur dict a (t, s) = some d := by
  unfold wordDecos
  rw [List.mem_filterMap]
  constructor
  · rintro ⟨⟨t, s⟩, hm, hp⟩
    exact ⟨t, s, hm, hp⟩
  · rintro ⟨t, s, hm, hp⟩
    exact ⟨(t, s), hm, hp⟩

theorem mem_lineDecos (ln : Str) (f cur : Nat) (dict : Store) (a : Bool) (d : Deco) :
    d ∈ lineDecos ln f cur dict a ↔
      (d ∈ quoteDecos ln f cur ∨ d ∈ wordDecos ln f cur dict a) := by
  unfold lineDecos
  rw [(List.perm_insertionSort decoLE
    (quoteDecos ln f cur ++ wordDecos ln f cur dict a)).mem_iff]
  exact List.mem_append

theorem lineDecos_bounds (ln : Str) (f cur : Nat) (dict : Store) (a : Bool) :
    ∀ d ∈ lineDecos ln f cur dict a,
      f ≤ d.start ∧ d.start < d.stop ∧ d.stop ≤ f + ln.length ∧
        ¬(d.start ≤ cur ∧ cur ≤ d.stop) := by
  intro d hd
  rcases (mem_lineDecos ln f cur dict a d).mp hd with h | h
  · obtain ⟨p, hq⟩ := (mem_quoteDecos ln f cur d).mp h
    obtain ⟨ch, hch, -, hne1, hne2, rfl⟩ := (quoteDecoAt_eq_some ln f cur p d).mp hq
    have hp : p < ln.length := (List.getElem?_eq_some_iff.mp hch).1
    dsimp only
    exact ⟨by omega, by omega, by omega, by omega⟩
  · obtain ⟨t, s, hts, hw⟩ := (mem_wordDecos ln f cur dict a d).mp h
    obtain ⟨hcnd, -, mapping, -, rfl⟩ := (wordDecoAt_eq_some ln f cur dict a t s d).mp hw
    have hb := shavianMatches_bounds ln t s hts
    have hpos : 0 < t.length :=
      List.length_pos.mpr (shavianMatches_ne_nil ln t s hts)
    dsimp only
    rcases hcnd with hcnd | hcnd <;>
      exact ⟨by omega, by omega, by omega, by omega⟩

theorem quoteDecos_pairwise (ln : Str) (f cur : Nat) :
    (quoteDecos ln f cur).Pairwise Deco.sep := by
  unfold quoteDecos
  rw [List.pairwise_filterMap]
  refine (List.pairwise_lt_range ln.length).imp ?_
  intro p q hpq d hd d' hd'
  rw [Option.mem_def] at hd hd'
  obtain ⟨-, -, -, -, -, rfl⟩ := (quoteDecoAt_eq_some ln f cur p d).mp hd
  obtain ⟨-, -, -, -, -, rfl⟩ := (quoteDecoAt_eq_some ln f cur q d').mp hd'
  left
  dsimp only
  omega

theorem wordDecos_pairwise (ln : Str) (f cur : Nat) (dict : Store) (a : Bool) :
    (wordDecos ln f cur dict a).Pairwise Deco.sep := by
  unfold wordDecos
  rw [List.pairwise_filterMap]
  refine (shavianMatches_pairwise ln).imp ?_
  intro x y hxy d hd d' hd'
  obtain ⟨tx, sx⟩ := x
  obtain ⟨ty, sy⟩ := y
  rw [Option.mem_def] at hd hd'
  obtain ⟨-, -, -, -, rfl⟩ := (wordDecoAt_eq_some ln f cur dict a tx sx d).mp hd
  obtain ⟨-, -, -, -, rfl⟩ := (wordDecoAt_eq_some ln f cur dict a ty sy d').mp hd'
  left
  dsimp only at hxy ⊢
  omega

theorem quote_word_sep (ln : Str) (f cur : Nat) (dict : Store) (a : Bool) :
    ∀ q ∈ quoteDecos ln f cur, ∀ w ∈ wordDecos ln f cur dict a, Deco.sep q w := by
  intro q hq w hw
  obtain ⟨p, hqb⟩ := (mem_quoteDecos ln f cur q).mp hq
  obtain ⟨ch, hch, hQ, -, -, rfl⟩ := (quoteDecoAt_eq_some ln f cur p q).mp hqb
  obtain ⟨t, s, hts, hwb⟩ := (mem_wordDecos ln f cur dict a w).mp hw
  obtain ⟨-, -, mapping, -, rfl⟩ := (wordDecoAt_eq_some ln f cur dict a t s w).mp hwb
  by_contra hsep
  simp only [Deco.sep, not_or, not_le] at hsep
  have h1 : s ≤ p := by omega
  have h2 : p < s + t.length := by omega
  obtain ⟨c, hc, hclass⟩ := shavianMatches_char_at ln t s p hts h1 h2
  rw [hch] at hc
  obtain rfl := Option.some_inj.mp hc
  exact quote_not_script ch hQ hclass

theorem lineDecos_pairwise_sep (ln : Str) (f cur : Nat) (dict : Store) (a : Bool) :
    (lineDecos ln f cur dict a).Pairwise Deco.sep := by
  unfold lineDecos
  have hsymm : ∀ {x y : Deco}, Deco.sep x y → Deco.sep y x := fun h => Or.symm h
  rw [(List.perm_insertionSort decoLE
      (quoteDecos ln f cur ++ wordDecos ln f cur dict a)).pairwise_iff hsymm]
  rw [List.pairwise_append]
  exact ⟨quoteDecos_pairwise ln f cur, wordDecos_pairwise ln f cur dict a,
    quote_word_sep ln f cur dict a⟩

theorem lineDecos_sorted (ln : Str) (f cur : Nat) (dict : Store) (a : Bool) :
    (lineDecos ln f cur dict a).Pairwise decoLE :=
  List.sorted_insertionSort decoLE (quoteDecos ln f cur ++ wordDecos ln f cur dict a)

theorem lineDecos_pairwise_ordered (ln : Str) (f cur : Nat) (dict : Store) (a : Bool) :
    (lineDecos ln f cur dict a).Pairwise (fun x y => x.stop ≤ y.start) := by
  have h1 := lineDecos_sorted ln f cur dict a
  have h2 := lineDecos_pairwise_sep ln f cur dict a
  have h3 := lineDecos_bounds ln f cur dict a
  refine (h1.and h2).imp_of_mem ?_
  intro x y hx hy hxy
  rcases hxy.2 with h | h
  · exact h
  · have hy' := (h3 y hy).2.1
    have hx1 : x.start ≤ y.start := hxy.1
    omega

theorem buildFrom_mem_bounds :
    ∀ (lines : List Str) (f cur : Nat) (dict : Store) (a : Bool),
      ∀ d ∈ buildFrom lines f cur dict a,
        f ≤ d.start ∧ d.start < d.stop ∧
        ¬(d.start ≤ cur ∧ cur ≤ d.stop) ∧
        ∃ j, ∃ hj : j < lines.length,
          f + lineStart lines j ≤ d.start ∧
          d.stop ≤ f + lineStart lines j + (lines.get ⟨j, hj⟩).length := by
  intro lines
  induction lines with
  | nil =>
    intro f cur dict a d hd
    simp [buildFrom] at hd
  | cons ln rest ih =>
    intro f cur dict a d hd
    rw [buildFrom, List.mem_append] at hd
    rcases hd with hd | hd
    · obtain ⟨hf, hlt, hstop, hcar⟩ := lineDecos_bounds ln f cur dict a d hd
      refine ⟨hf, hlt, hcar, 0, by simp, ?_, ?_⟩
      · simpa [lineStart] using hf
      · simpa [lineStart] using hstop
    · obtain ⟨hf, hlt, hcar, j, hj, hjs, hje⟩ := ih (f + ln.length + 1) cur dict a d hd
      refine ⟨by omega, hlt, hcar, j + 1, by simpa using hj, ?_, ?_⟩
      · simp only [lineStart]
        omega
      · simp only [lineStart, List.get_cons_succ]
        omega

theorem buildFrom_pairwise_ordered :
    ∀ (lines : List Str) (f cur : Nat) (dict : Store) (a : Bool),
      (buildFrom lines f cur dict a).Pairwise (fun x y => x.stop ≤ y.start) := by
  intro lines
  induction lines with
  | nil =>
    intro f cur dict a
    simp [buildFrom]
  | cons ln rest ih =>
    intro f cur dict a
    rw [buildFrom, List.pairwise_append]
    refine ⟨lineDecos_pairwise_ordered ln f cur dict a, ih (f + ln.length + 1) cur dict a, ?_⟩
    intro x hx y hy
    have hx' := (lineDecos_bounds ln f cur dict a x hx).2.2.1
    have hy' := (buildFrom_mem_bounds rest (f + ln.length + 1) cur dict a y hy).1
    omega

/-- C6: within a single decoration pass the emitted spans are pairwise
non-overlapping (each ends no later than the next starts) and sorted by
start offset ascending, no emitted span touches the caret offset even at
its closed boundaries, and every span lies inside a single line. -/
theorem buildDecorations_invariants (doc : List Str) (cur : Nat) (dict : Store) (a : Bool) :
    (buildDecorations doc cur dict a).Pairwise (fun x y => x.stop ≤ y.start) ∧
    (buildDecorations doc cur dict a).Pairwise decoLE ∧
    (buildDecorations doc cur dict a).Pairwise Deco.sep ∧
    (∀ d ∈ buildDecorations doc cur dict a, ¬(d.start ≤ cur ∧ cur ≤ d.stop)) ∧
    (∀ d ∈ buildDecorations doc cur dict a, ∃ j, ∃ hj : j < doc.length,
      lineStart doc j ≤ d.start ∧
      d.stop ≤ lineStart doc j + (doc.get ⟨j, hj⟩).length) := by
  have hord := buildFrom_pairwise_ordered doc 0 cur dict a
  have hb := buildFrom_mem_bounds doc 0 cur dict a
  refine ⟨hord, ?_, ?_, ?_, ?_⟩
  · refine hord.imp_of_mem ?_
    intro x y hx hy hxy
    have hx' := (hb x hx).2.1
    show x.start ≤ y.start
    omega
  · exact hord.imp (fun h => Or.inl h)
  · intro d hd
    exact (hb d hd).2.2.1
  · intro d hd
    obtain ⟨-, -, -, j, hj, h1, h2⟩ := (hb d hd)
    exact ⟨j, hj, by simpa using h1, by simpa using h2⟩

theorem renderedText_eq (ln t : Str) (s : Nat) (mapping : WordMapping) :
    renderedText ln t s mapping =
      if isNameToken ln t s ∧ 0 < mapping.latin.length then
        capitaliseFirst mapping.latin
      else mapping.latin := by
  unfold renderedText
  by_cases hn : isNameToken ln t s = true
  · by_cases hl : 0 < mapping.latin.length
    · rw [if_pos hn, if_pos ⟨hn, hl⟩]
    · rw [if_pos hn, if_neg (fun h => hl h.2)]
      have hnil : mapping.latin = [] := by
        cases hme : mapping.latin with
        | nil => rfl
        | cons x xs => rw [hme] at hl; simp at hl
      rw [hnil]
      rfl
  · rw [if_neg hn, if_neg (fun h => hn h.1)]

theorem count_eq_one_of_pairwise (l : List Deco) (x : Deco)
    (h : l.Pairwise fun d e => d.stop ≤ e.start)
    (hx : x ∈ l) (hlt : x.start < x.stop) : l.count x = 1 := by
  induction l with
  | nil => simp at hx
  | cons d tl ih =>
    by_cases hdx : d = x
    · subst hdx
      rw [List.count_cons_self]
      have hnot : d ∉ tl := by
        intro hmem
        have := (List.pairwise_cons.mp h).1 d hmem
        omega
      rw [List.count_eq_zero_of_not_mem hnot]
    · have hx' : x ∈ tl := by
        rcases List.mem_cons.mp hx with h' | h'
        · exact absurd h'.symm hdx
        · exact h'
      rw [List.count_cons_of_ne (fun he => hdx he.symm) tl]
      exact ih (List.pairwise_cons.mp h).2 hx'

theorem shavianMatches_sep (ln t : Str) (s : Nat) (t' : Str) (s' : Nat)
    (h : (t, s) ∈ shavianMatches ln) (h' : (t', s') ∈ shavianMatches ln)
    (hne : (t, s) ≠ (t', s')) :
    s + t.length ≤ s' ∨ s' + t'.length ≤ s := by
  have hpw : (shavianMatches ln).Pairwise
      (fun x y => x.2 + x.1.length ≤ y.2 ∨ y.2 + y.1.length ≤ x.2) :=
    (shavianMatches_pairwise ln).imp (fun hh => Or.inl hh)
  have hsym : Symmetric
      (fun x y : Str × Nat => x.2 + x.1.length ≤ y.2 ∨ y.2 + y.1.length ≤ x.2) :=
    fun x y hh => Or.symm hh
  exact hpw.forall hsym h h' hne

theorem lineDecos_skip (ln : Str) (f cur : Nat) (dict : Store) (a : Bool)
    (t : Str) (s : Nat) (hts : (t, s) ∈ shavianMatches ln)
    (h1 : f + s ≤ cur) (h2 : cur ≤ f + s + t.length) :
    ∀ d ∈ lineDecos ln f cur dict a,
      ¬(d.start < f + s + t.length ∧ f + s < d.stop) := by
  intro d hd
  rcases (mem_lineDecos ln f cur dict a d).mp hd with h | h
  · obtain ⟨p, hq⟩ := (mem_quoteDecos ln f cur d).mp h
    obtain ⟨ch, hch, hQ, -, -, rfl⟩ := (quoteDecoAt_eq_some ln f cur p d).mp hq
    dsimp only
    rintro ⟨hov1, hov2⟩
    have hp1 : s ≤ p := by omega
    have hp2 : p < s + t.length := by omega
    obtain ⟨c, hc, hclass⟩ := shavianMatches_char_at ln t s p hts hp1 hp2
    rw [hch] at hc
    obtain rfl := Option.some_inj.mp hc
    exact quote_not_script ch hQ hclass
  · obtain ⟨t', s', hts', hw⟩ := (mem_wordDecos ln f cur dict a d).mp h
    obtain ⟨hcnd, -, mapping, -, rfl⟩ :=
      (wordDecoAt_eq_some ln f cur dict a t' s' d).mp hw
    dsimp only
    rintro ⟨hov1, hov2⟩
    by_cases heq : (t', s') = (t, s)
    · injection heq with he1 he2
      subst he1
      subst he2
      rcases hcnd with h' | h' <;> omega
    · have hsep := shavianMatches_sep ln t' s' t s hts' hts heq
      rcases hsep with hsep | hsep <;> omega

theorem lineDecos_emit (ln : Str) (f cur : Nat) (dict : Store)
    (t : Str) (s : Nat) (mapping : WordMapping)
    (hts : (t, s) ∈ shavianMatches ln)
    (hcur : cur < f + s ∨ cur > f + s + t.length)
    (hget : mapGet dict (stripLeadingMark t) = some mapping) :
    (⟨f + s, f + s + t.length, renderedText ln t s mapping⟩ : Deco) ∈
        lineDecos ln f cur dict true ∧
    ∀ d ∈ lineDecos ln f cur dict true,
      d.start < f + s + t.length → f + s < d.stop →
        d = ⟨f + s, f + s + t.length, renderedText ln t s mapping⟩ := by
  constructor
  · rw [mem_lineDecos]
    right
    rw [mem_wordDecos]
    refine ⟨t, s, hts, ?_⟩
    rw [wordDecoAt_eq_some]
    exact ⟨hcur, rfl, mapping, hget, by rw [renderedText_eq]⟩
  · intro d hd hov1 hov2
    rcases (mem_lineDecos ln f cur dict true d).mp hd with h | h
    · exfalso
      obtain ⟨p, hq⟩ := (mem_quoteDecos ln f cur d).mp h
      obtain ⟨ch, hch, hQ, -, -, rfl⟩ := (quoteDecoAt_eq_some ln f cur p d).mp hq
      dsimp only at hov1 hov2
      have hp1 : s ≤ p := by omega
      have hp2 : p < s + t.length := by omega
      obtain ⟨c, hc, hclass⟩ := shavianMatches_char_at ln t s p hts hp1 hp2
      rw [hch] at hc
      obtain rfl := Option.some_inj.mp hc
      exact quote_not_script ch hQ hclass
    · obtain ⟨t', s', hts', hw⟩ := (mem_wordDecos ln f cur dict true d).mp h
      obtain ⟨hcnd, -, mapping', hget', rfl⟩ :=
        (wordDecoAt_eq_some ln f cur dict true t' s' d).mp hw
      dsimp only at hov1 hov2
      by_cases heq : (t', s') = (t, s)
      · injection heq with he1 he2
        subst he1
        subst he2
        rw [hget] at hget'
        obtain rfl := Option.some_inj.mp hget'
        rw [renderedText_eq]
      · exfalso
        have hsep := shavianMatches_sep ln t' s' t s hts' hts heq
        rcases hsep with hsep | hsep <;> omega

theorem buildFrom_skip :
    ∀ (lines : List Str) (f cur : Nat) (dict : Store) (a : Bool) (li : Nat)
      (hli : li < lines.length) (t : Str) (s : Nat),
      (t, s) ∈ shavianMatches (lines.get ⟨li, hli⟩) →
      f + lineStart lines li + s ≤ cur →
      cur ≤ f + lineStart lines li + s + t.length →
      ∀ d ∈ buildFrom lines f cur dict a,
        ¬(d.start < f + lineStart lines li + s + t.length ∧
          f + lineStart lines li + s < d.stop) := by
  intro lines
  induction lines with
  | nil =>
    intro f cur dict a li hli
    simp at hli
  | cons ln rest ih =>
    intro f cur dict a li hli t s hts hc1 hc2 d hd
    rw [buildFrom, List.mem_append] at hd
    cases li with
    | zero =>
      simp only [lineStart, Nat.add_zero, List.get_cons_zero] at hts hc1 hc2 ⊢
      rcases hd with hd | hd
      · exact lineDecos_skip ln f cur dict a t s hts hc1 hc2 d hd
      · have hb := (buildFrom_mem_bounds rest (f + ln.length + 1) cur dict a d hd).1
        have htb := shavianMatches_bounds ln t s hts
        rintro ⟨hcon1, -⟩
        omega
    | succ j =>
      have hts' : (t, s) ∈ shavianMatches (rest.get ⟨j, Nat.lt_of_succ_lt_succ (by simpa using hli)⟩) := by
        simpa using hts
      rcases hd with hd | hd
      · have hb := (lineDecos_bounds ln f cur dict a d hd).2.2.1
        rintro ⟨-, hcon2⟩
        simp only [lineStart] at hcon2
        omega
      · have hrec := ih (f + ln.length + 1) cur dict a j
          (Nat.lt_of_succ_lt_succ (by simpa using hli)) t s hts'
          (by simp only [lineStart] at hc1; omega)
          (by simp only [lineStart] at hc2; omega) d hd
        rintro ⟨hcon1, hcon2⟩
        apply hrec
        constructor
        · simp only [lineStart] at hcon1
          omega
        · simp only [lineStart] at hcon2
          omega

theorem buildFrom_emit :
    ∀ (lines : List Str) (f cur : Nat) (dict : Store) (li : Nat)
      (hli : li < lines.length) (t : Str) (s : Nat) (mapping : WordMapping),
      (t, s) ∈ shavianMatches (lines.get ⟨li, hli⟩) →
      (cur < f + lineStart lines li + s ∨ cur > f + lineStart lines li + s + t.length) →
      mapGet dict (stripLeadingMark t) = some mapping →
      ((⟨f + lineStart lines li + s, f + lineStart lines li + s + t.length,
          renderedText (lines.get ⟨li, hli⟩) t s mapping⟩ : Deco) ∈
        buildFrom lines f cur dict true ∧
      ∀ d ∈ buildFrom lines f cur dict true,
        d.start < f + lineStart lines li + s + t.length →
        f + lineStart lines li + s < d.stop →
          d = ⟨f + lineStart lines li + s, f + lineStart lines li + s + t.length,
            renderedText (lines.get ⟨li, hli⟩) t s mapping⟩) := by
  intro lines
  induction lines with
  | nil =>
    intro f cur dict li hli
    simp at hli
  | cons ln rest ih =>
    intro f cur dict li hli t s mapping hts hcur hget
    cases li with
    | zero =>
      simp only [lineStart, Nat.add_zero, List.get_cons_zero] at hts hcur ⊢
      obtain ⟨hmem, huniq⟩ := lineDecos_emit ln f cur dict t s mapping hts hcur hget
      constructor
      · rw [buildFrom]
        exact List.mem_append_left _ hmem
      · intro d hd hov1 hov2
        rw [buildFrom, List.mem_append] at hd
        rcases hd with hd | hd
        · exact huniq d hd hov1 hov2
        · exfalso
          have hb := (buildFrom_mem_bounds rest (f + ln.length + 1) cur dict true d hd).1
          have htb := shavianMatches_bounds ln t s hts
          omega
    | succ j =>
      have hlj : j < rest.length := Nat.lt_of_succ_lt_succ (by simpa using hli)
      have hts' : (t, s) ∈ shavianMatches (rest.get ⟨j, hlj⟩) := by
        simpa using hts
      have harith : f + lineStart (ln :: rest) (j + 1) + s =
          f + ln.length + 1 + lineStart rest j + s := by
        simp only [lineStart]
        omega
      have hgeteq : (ln :: rest).get ⟨j + 1, hli⟩ = rest.get ⟨j, hlj⟩ := by
        simp
      rw [harith, hgeteq]
      obtain ⟨hmem, huniq⟩ := ih (f + ln.length + 1) cur dict j hlj t s mapping hts'
        (by rw [harith] at hcur; exact hcur) hget
      constructor
      · rw [buildFrom]
        exact List.mem_append_right _ hmem
      · intro d hd hov1 hov2
        rw [buildFrom, List.mem_append] at hd
        rcases hd with hd | hd
        · exfalso
          have hb := (lineDecos_bounds ln f cur dict true d hd).2.2.1
          omega
        · exact huniq d hd hov1 hov2

/-- C1: for every line, every script token of that line occupying document
offsets `[start, stop)`, and every caret offset: if the caret lies in the
closed range `[start, stop]` the builder emits no decoration overlapping
the token; if the caret lies outside it, auto-translate is enabled and the
token's base word (leading marker stripped) is in the dictionary, the pass
emits exactly one replacement decoration — it spans the full token and its
rendered text is the stored translation with the first character
uppercased iff the token carries a leading marker or the character just
before the match is the marker (`renderedText`). -/
theorem buildDecorations_caret_and_render (doc : List Str) (cur : Nat) (dict : Store)
    (a : Bool) (li : Nat) (hli : li < doc.length) (t : Str) (s : Nat)
    (htok : (t, s) ∈ shavianMatches (doc.get ⟨li, hli⟩)) :
    (lineStart doc li + s ≤ cur → cur ≤ lineStart doc li + s + t.length →
      ∀ d ∈ buildDecorations doc cur dict a,
        ¬(d.start < lineStart doc li + s + t.length ∧ lineStart doc li + s < d.stop)) ∧
    ((cur < lineStart doc li + s ∨ cur > lineStart doc li + s + t.length) →
      ∀ mapping, mapGet dict (stripLeadingMark t) = some mapping →
        (⟨lineStart doc li + s, lineStart doc li + s + t.length,
            renderedText (doc.get ⟨li, hli⟩) t s mapping⟩ : Deco) ∈
          buildDecorations doc cur dict true ∧
        (buildDecorations doc cur dict true).count
            ⟨lineStart doc li + s, lineStart doc li + s + t.length,
              renderedText (doc.get ⟨li, hli⟩) t s mapping⟩ = 1 ∧
        ∀ d ∈ buildDecorations doc cur dict true,
          d.start < lineStart doc li + s + t.length →
          lineStart doc li + s < d.stop →
            d = ⟨lineStart doc li + s, lineStart doc li + s + t.length,
              renderedText (doc.get ⟨li, hli⟩) t s mapping⟩) := by
  constructor
  · intro h1 h2 d hd
    have hskip := buildFrom_skip doc 0 cur dict a li hli t s htok
      (by omega) (by omega) d hd
    rintro ⟨hc1, hc2⟩
    exact hskip ⟨by omega, by omega⟩
  · intro hcur mapping hget
    have hzero : (0 : Nat) + lineStart doc li + s = lineStart doc li + s := by omega
    have hmain := buildFrom_emit doc 0 cur dict li hli t s mapping htok
      (by rw [hzero]; exact hcur) hget
    rw [hzero] at hmain
    obtain ⟨hmem, huniq⟩ := hmain
    refine ⟨hmem, ?_, huniq⟩
    apply count_eq_one_of_pairwise _ _ (buildFrom_pairwise_ordered doc 0 cur dict true) hmem
    have hpos : 0 < t.length :=
      List.length_pos.mpr (shavianMatches_ne_nil (doc.get ⟨li, hli⟩) t s htok)
    dsimp only
    omega

/-- Witness for C1: on the concrete document the `·𐑓` token renders as
`Friend` exactly once. -/
theorem buildDecorations_caret_and_render_witness :
    (⟨3, 5, ['F', 'r', 'i', 'e', 'n', 'd']⟩ : Deco) ∈
        buildDecorations docW 0 sampleStore true ∧
    (buildDecorations docW 0 sampleStore true).count
        ⟨3, 5, ['F', 'r', 'i', 'e', 'n', 'd']⟩ = 1 := by
  have h := (buildDecorations_caret_and_render docW 0 sampleStore true 1 (by decide)
      ('·' :: '𐑓' :: []) 0 (by decide)).2 (by decide)
      ⟨['𐑓'], ['f', 'r', 'i', 'e', 'n', 'd'], 4⟩ (by decide)
  exact ⟨h.1, h.2.1⟩

/-- Witness for C6: on a concrete document the span scheduled over `·𐑓`
does not touch the caret. -/
theorem buildDecorations_invariants_witness :
    ¬((⟨3, 5, ['F', 'r', 'i', 'e', 'n', 'd']⟩ : Deco).start ≤ 1 ∧
      1 ≤ (⟨3, 5, ['F', 'r', 'i', 'e', 'n', 'd']⟩ : Deco).stop) :=
  (buildDecorations_invariants docW 1 sampleStore true).2.2.2.1
    ⟨3, 5, ['F', 'r', 'i', 'e', 'n', 'd']⟩ (by decide)

theorem stripLeadingMark_head (ln t : Str) (s : Nat)
    (h : (t, s) ∈ shavianMatches ln) :
    ∃ e run, stripLeadingMark t = e :: run ∧ isShavianChar e = true := by
  obtain ⟨d, run, rfl, hrun, hd⟩ := shavianMatches_shape ln t s h
  rcases hd with hd | ⟨rfl, hne⟩
  · have hdi : d ≠ interpunct := by
      intro he
      rw [he] at hd
      exact absurd hd (by decide)
    refine ⟨d, run, ?_, hd⟩
    simp [stripLeadingMark, hdi]
  · rcases run with _ | ⟨e, run'⟩
    · exact absurd rfl hne
    · refine ⟨e, run', ?_, hrun e (by simp)⟩
      simp [stripLeadingMark]

theorem wordDecoAt_delete_marker (ln : Str) (f cur : Nat) (dict : Store) (a : Bool)
    (k : Str) (hk : k.head? = some interpunct) :
    ∀ m ∈ shavianMatches ln,
      wordDecoAt ln f cur (mapDelete dict k) a m = wordDecoAt ln f cur dict a m := by
  intro m hm
  obtain ⟨t, s⟩ := m
  have hne : stripLeadingMark t ≠ k := by
    obtain ⟨e, run, hstrip, he⟩ := stripLeadingMark_head ln t s hm
    intro hcontra
    rw [hcontra] at hstrip
    rw [hstrip] at hk
    simp only [List.head?_cons, Option.some_inj] at hk
    rw [hk] at he
    exact absurd he (by decide)
  unfold wordDecoAt
  rw [mapGet_delete_ne dict k (stripLeadingMark t) hne]

theorem buildFrom_delete_marker :
    ∀ (lines : List Str) (f cur : Nat) (dict : Store) (a : Bool) (k : Str),
      k.head? = some interpunct →
      buildFrom lines f cur (mapDelete dict k) a = buildFrom lines f cur dict a := by
  intro lines
  induction lines with
  | nil =>
    intro f cur dict a k hk
    rfl
  | cons ln rest ih =>
    intro f cur dict a k hk
    have hw : wordDecos ln f cur (mapDelete dict k) a = wordDecos ln f cur dict a := by
      unfold wordDecos
      exact List.filterMap_congr (wordDecoAt_delete_marker ln f cur dict a k hk)
    rw [buildFrom, buildFrom, ih (f + ln.length + 1) cur dict a k hk]
    unfold lineDecos
    rw [hw]

/-- C10: the builder always looks words up by the base word with a single
leading proper-noun marker stripped, so a dictionary entry keyed by a
marker-prefixed string never yields a decoration — removing such a key
never changes a pass; yet the add-selection flow extracts the first script
match with the optional leading marker included, and define can therefore
store a marker-prefixed key. -/
theorem marker_keys_stored_but_unreachable :
    (∀ (doc : List Str) (cur : Nat) (dict : Store) (a : Bool) (k : Str),
      k.head? = some interpunct →
      buildDecorations doc cur (mapDelete dict k) a = buildDecorations doc cur dict a) ∧
    addSelectedTextToDictionary ('x' :: '·' :: '𐑣' :: []) = some ('·' :: '𐑣' :: []) ∧
    (∀ (lat : Str) (now : Nat),
      mapGet (addWordMapping [] ('·' :: '𐑣' :: []) lat now).1 ('·' :: '𐑣' :: []) =
        some ⟨'·' :: '𐑣' :: [], lat, now⟩) := by
  refine ⟨?_, by decide, ?_⟩
  · intro doc cur dict a k hk
    exact buildFrom_delete_marker doc 0 cur dict a k hk
  · intro lat now
    rfl

/-- Witness for C10: deleting the marker-prefixed key from a concrete
store leaves a concrete pass unchanged. -/
theorem marker_keys_stored_but_unreachable_witness :
    buildDecorations docW 0 (mapDelete markedStore ('·' :: '𐑓' :: [])) true =
      buildDecorations docW 0 markedStore true :=
  marker_keys_stored_but_unreachable.1 docW 0 markedStore true ('·' :: '𐑓' :: [])
    (by decide)

end Plume
